import Mathlib

/-!
Verification of the NYC taxi data analysis repository.

This file shallowly embeds the algorithmic core of the repository
(`src/tasks/task2.py`: the four sorting algorithms and the timing harness;
`src/tasks/task3.py`: the trip-graph builder and the three
connected-component algorithms) and proves or refutes the claims of the
specification about them.

Conventions of the embedding:
* Python lists become `List`; Python tuples of numbers become values of an
  abstract linearly ordered type (the natural tuple order of Python is the
  linear order of that type); floats used as sort keys and clock readings
  become rationals.
* `data[j][key_index]` (tuple subscripting by a fixed index) is one instance
  of the spec's key-selector abstraction, so both it and the explicit
  `key_func` parameters of the Python code are embedded as a function
  `α → K` into a linearly ordered key type.
* Python's `heapq` module is external library code; it is modelled by its
  documented contract (heappush adds one element to the heap, heappop
  removes and returns a smallest element), realised executably as insertion
  into a list kept sorted, so that pushing all elements and popping them all
  yields the list sorted by the element order.
* Wall-clock readings (`time.time()`) are outside a shallow embedding; the
  two clock reads of the timing harness become two explicit rational
  parameters, threaded in the order the Python code performs the reads.
-/

namespace NYCTaxi

section SortAlgorithms

variable {α : Type} {K : Type} [LinearOrder K]

/-- Embeds one comparison-and-swap of the inner loop of `bubble_sort`
(src/tasks/task2.py line 43-44): `if data[j][key_index] > data[j+1][key_index]:
data[j], data[j+1] = data[j+1], data[j]`. -/
def bubbleStep (key_index : α → K) (l : List α) (j : Nat) : List α :=
  match l[j]?, l[j + 1]? with
  | some a, some b => if key_index b < key_index a then (l.set j b).set (j + 1) a else l
  | _, _ => l

/-- Embeds the inner loop `for j in range(0, n - i - 1)` of `bubble_sort`
(src/tasks/task2.py lines 42-44). -/
def bubbleInner (key_index : α → K) (l : List α) (bound : Nat) : List α :=
  (List.range bound).foldl (bubbleStep key_index) l

/-- Embeds `bubble_sort(data, key_index)` (src/tasks/task2.py lines 38-45):
copies the list, then runs `for i in range(n): for j in range(0, n - i - 1)`
comparing and swapping adjacent elements. -/
def bubble_sort (data : List α) (key_index : α → K) : List α :=
  (List.range data.length).foldl
    (fun l i => bubbleInner key_index l (data.length - i - 1)) data

/-- Embeds the merge `while` loop of `merge_sort` (src/tasks/task2.py lines
57-63): while both halves are nonempty take the head of the left half when
its key is strictly smaller, otherwise (ties included) the head of the
right half; afterwards append the leftovers of the left half then of the
right half. -/
def mergeLoop (key_index : α → K) : List α → List α → List α
  | [], right_half => right_half
  | left_half, [] => left_half
  | a :: ls, b :: rs =>
    if key_index a < key_index b then a :: mergeLoop key_index ls (b :: rs)
    else b :: mergeLoop key_index (a :: ls) rs
termination_by l r => l.length + r.length

/-- Embeds `merge_sort(data, key_index)` (src/tasks/task2.py lines 49-64):
if the list has more than one element, split at `len(data) // 2`, recursively
sort both halves and merge them; otherwise return the list unchanged. -/
def merge_sort (data : List α) (key_index : α → K) : List α :=
  if h : data.length > 1 then
    mergeLoop key_index
      (merge_sort (data.take (data.length / 2)) key_index)
      (merge_sort (data.drop (data.length / 2)) key_index)
  else data
termination_by data.length
decreasing_by
  · simp only [List.length_take]; omega
  · simp only [List.length_drop]; omega

/-- Embeds `quicksort(data, key_func)` (src/tasks/task2.py lines 116-125):
lists of length at most one are returned unchanged; otherwise the first
element is the pivot, the tail is partitioned into the elements whose key is
`<=` the pivot's key and those whose key is `>`, both parts are sorted
recursively and the result is `lesser + [pivot] + greater`. -/
def quicksort (data : List α) (key_func : α → K) : List α :=
  if h : data.length ≤ 1 then data
  else
    match data with
    | [] => []
    | pivot :: rest =>
      quicksort (rest.filter fun x => decide (key_func x ≤ key_func pivot)) key_func ++
        pivot :: quicksort (rest.filter fun x => decide (key_func pivot < key_func x)) key_func
termination_by data.length
decreasing_by
  · simpa using Nat.lt_succ_of_le (rest.length_filter_le _)
  · simpa using Nat.lt_succ_of_le (rest.length_filter_le _)

variable [LinearOrder α]

/-- Model of `heapq.heappush` followed eventually by `heappop`s: `heapq` is
Python standard-library code, modelled here by its documented contract
(`heappush` adds one element, `heappop` removes and returns a smallest
element), realised as insertion into a list kept sorted by the element
order, so that the heap's pop sequence is the list itself. -/
def heappush (heap : List α) (value : α) : List α :=
  match heap with
  | [] => [value]
  | b :: t => if value ≤ b then value :: b :: t else b :: heappush t value

/-- Embeds `heapsort(data, key_func)` (src/tasks/task2.py lines 129-134):
pushes every raw element onto a `heapq` min-heap and pops them all.  The
`key_func` parameter is accepted but never used by the Python code, so the
heap orders elements by their natural (for tuples: lexicographic) order. -/
def heapsort (data : List α) (key_func : α → K) : List α :=
  data.foldl heappush []

/-- Embeds `time_sorting_algorithm(algorithm, data, key_func)`
(src/tasks/task2.py lines 138-142).  The two `time.time()` readings are
outside a shallow embedding and become the explicit parameters `start_time`
and `end_time`, read in that order around the single algorithm call. -/
def time_sorting_algorithm (start_time end_time : ℚ)
    (algorithm : List α → (α → K) → List α) (data : List α) (key_func : α → K) :
    ℚ × List α :=
  (end_time - start_time, algorithm data key_func)

/-- Embeds the module-level call `time_sorting_algorithm(heapsort, trips_small,
key_func=...)` whose result is bound to `hs_time_small, hs_sorted_small`
(src/tasks/task2.py lines 153-154); this def is the sorted-output component. -/
def hs_sorted_small (t1 t2 : ℚ) (trips_small trips_medium trips_large : List α)
    (key_func : α → K) : List α :=
  (time_sorting_algorithm t1 t2 heapsort trips_small key_func).2

/-- Embeds the module-level call producing `hs_sorted_medium`
(src/tasks/task2.py lines 159-160): the code passes `trips_small`, not
`trips_medium`, to the heapsort timing for the MEDIUM dataset. -/
def hs_sorted_medium (t1 t2 : ℚ) (trips_small trips_medium trips_large : List α)
    (key_func : α → K) : List α :=
  (time_sorting_algorithm t1 t2 heapsort trips_small key_func).2

/-- Embeds the module-level call producing `hs_sorted_large`
(src/tasks/task2.py lines 165-166): the code passes `trips_small`, not
`trips_large`, to the heapsort timing for the LARGE dataset. -/
def hs_sorted_large (t1 t2 : ℚ) (trips_small trips_medium trips_large : List α)
    (key_func : α → K) : List α :=
  (time_sorting_algorithm t1 t2 heapsort trips_small key_func).2

/-- Embeds the module-level call producing `qs_sorted_medium`
(src/tasks/task2.py lines 157-158): quicksort is timed on `trips_medium`. -/
def qs_sorted_medium (t1 t2 : ℚ) (trips_small trips_medium trips_large : List α)
    (key_func : α → K) : List α :=
  (time_sorting_algorithm t1 t2 quicksort trips_medium key_func).2

/-- Embeds the module-level call producing `qs_sorted_large`
(src/tasks/task2.py lines 163-164): quicksort is timed on `trips_large`. -/
def qs_sorted_large (t1 t2 : ℚ) (trips_small trips_medium trips_large : List α)
    (key_func : α → K) : List α :=
  (time_sorting_algorithm t1 t2 quicksort trips_large key_func).2

end SortAlgorithms

section SortLemmas

variable {α : Type} {K : Type} [LinearOrder K]

lemma set_set_perm :
    ∀ (l : List α) (j : Nat) (a b : α), l[j]? = some a → l[j + 1]? = some b →
      ((l.set j b).set (j + 1) a).Perm l
  | [], j, a, b, ha, _ => by simp at ha
  | x :: t, 0, a, b, ha, hb => by
    cases t with
    | nil => simp at hb
    | cons y t' =>
      simp only [List.getElem?_cons_zero, List.getElem?_cons_succ,
        Option.some.injEq] at ha hb
      subst ha; subst hb
      simpa [List.set] using List.Perm.swap x y t'
  | x :: t, j + 1, a, b, ha, hb => by
    simp only [List.getElem?_cons_succ] at ha hb
    simpa [List.set] using (set_set_perm t j a b ha hb).cons x

lemma bubbleStep_perm (key_index : α → K) (l : List α) (j : Nat) :
    (bubbleStep key_index l j).Perm l := by
  unfold bubbleStep
  cases ha : l[j]? with
  | none => rfl
  | some a =>
    cases hb : l[j + 1]? with
    | none => rfl
    | some b =>
      dsimp only
      split
      · exact set_set_perm l j a b ha hb
      · rfl

lemma foldl_bubbleStep_perm (key_index : α → K) :
    ∀ (js : List Nat) (l : List α), (js.foldl (bubbleStep key_index) l).Perm l
  | [], l => List.Perm.refl l
  | j :: js, l =>
    (foldl_bubbleStep_perm key_index js (bubbleStep key_index l j)).trans
      (bubbleStep_perm key_index l j)

lemma bubbleInner_perm (key_index : α → K) (l : List α) (bound : Nat) :
    (bubbleInner key_index l bound).Perm l :=
  foldl_bubbleStep_perm key_index (List.range bound) l

lemma bubble_sort_perm (data : List α) (key_index : α → K) :
    (bubble_sort data key_index).Perm data := by
  unfold bubble_sort
  generalize List.range data.length = is
  generalize data.length = n
  induction is generalizing data with
  | nil => exact List.Perm.refl data
  | cons i is ih =>
    exact (ih (bubbleInner key_index data (n - i - 1))).trans
      (bubbleInner_perm key_index data (n - i - 1))

lemma mergeLoop_perm (key_index : α → K) (l r : List α) :
    (mergeLoop key_index l r).Perm (l ++ r) := by
  induction l, r using mergeLoop.induct key_index with
  | case1 r => simp [mergeLoop]
  | case2 l => simp [mergeLoop]
  | case3 a ls b rs h ih =>
    rw [mergeLoop]; simp only [if_pos h]
    exact ih.cons a
  | case4 a ls b rs h ih =>
    rw [mergeLoop]; simp only [if_neg h]
    exact (ih.cons b).trans List.perm_middle.symm

lemma merge_sort_perm (data : List α) (key_index : α → K) :
    (merge_sort data key_index).Perm data := by
  induction data, key_index using merge_sort.induct with
  | case1 data key_index h ih1 ih2 =>
    rw [merge_sort, dif_pos h]
    refine (mergeLoop_perm _ _ _).trans ?_
    refine (ih1.append ih2).trans ?_
    rw [List.take_append_drop]
  | case2 data key_index h =>
    rw [merge_sort, dif_neg h]

lemma filter_le_filter_gt_perm (key_func : α → K) (p : α) (rest : List α) :
    ((rest.filter fun x => decide (key_func x ≤ key_func p)) ++
      (rest.filter fun x => decide (key_func p < key_func x))).Perm rest := by
  have hc : (rest.filter fun x => !decide (key_func x ≤ key_func p)) =
      rest.filter fun x => decide (key_func p < key_func x) := by
    apply List.filter_congr
    intro x _
    rw [← decide_not]
    simp [not_le]
  simpa [hc] using List.filter_append_perm (fun x => decide (key_func x ≤ key_func p)) rest

lemma quicksort_perm (data : List α) (key_func : α → K) :
    (quicksort data key_func).Perm data := by
  induction data, key_func using quicksort.induct with
  | case1 data key_func h => rw [quicksort, dif_pos h]
  | case2 key_func h h' =>
    exact absurd (by simp) h
  | case3 key_func pivot rest h h' ih1 ih2 =>
    rw [quicksort, dif_neg h]
    refine ((ih1.append (ih2.cons pivot)).trans ?_)
    refine List.perm_middle.trans ?_
    exact (filter_le_filter_gt_perm key_func pivot rest).cons pivot

variable [LinearOrder α]

lemma heappush_perm (heap : List α) (value : α) :
    (heappush heap value).Perm (value :: heap) := by
  induction heap with
  | nil => rfl
  | cons b t ih =>
    rw [heappush]
    split
    · rfl
    · exact (ih.cons b).trans (List.Perm.swap value b t)

lemma foldl_heappush_perm :
    ∀ (ds acc : List α), (ds.foldl heappush acc).Perm (acc ++ ds)
  | [], acc => by simp
  | v :: ds, acc => by
    refine (foldl_heappush_perm ds (heappush acc v)).trans ?_
    exact ((heappush_perm acc v).append_right ds).trans List.perm_middle.symm

lemma heapsort_perm (data : List α) (key_func : α → K) :
    (heapsort data key_func).Perm data := by
  simpa using foldl_heappush_perm data []

lemma heappush_sorted {heap : List α} (hs : heap.Sorted (· ≤ ·)) (value : α) :
    (heappush heap value).Sorted (· ≤ ·) := by
  induction heap with
  | nil => simp [heappush]
  | cons b t ih =>
    rw [heappush]
    rw [List.sorted_cons] at hs
    split
    · rename_i hvb
      rw [List.sorted_cons]
      refine ⟨?_, List.sorted_cons.2 hs⟩
      intro y hy
      rcases List.mem_cons.1 hy with hy | hy
      · subst hy; exact hvb
      · exact hvb.trans (hs.1 y hy)
    · rename_i hvb
      push_neg at hvb
      rw [List.sorted_cons]
      refine ⟨?_, ih hs.2⟩
      intro y hy
      rcases List.mem_cons.1 ((heappush_perm t value).mem_iff.1 hy) with hy | hy
      · subst hy; exact hvb.le
      · exact hs.1 y hy

lemma heapsort_sorted (data : List α) (key_func : α → K) :
    (heapsort data key_func).Sorted (· ≤ ·) := by
  unfold heapsort
  have h : ∀ (ds acc : List α), acc.Sorted (· ≤ ·) →
      (ds.foldl heappush acc).Sorted (· ≤ ·) := by
    intro ds
    induction ds with
    | nil => intro acc h; simpa using h
    | cons v ds ih =>
      intro acc hacc
      exact ih (heappush acc v) (heappush_sorted hacc v)
  exact h data [] (by simp)

end SortLemmas

section Stability

variable {α : Type} {K : Type} [LinearOrder K]

lemma filter_swap_adjacent (P : α → Bool) (a b : α) (t : List α)
    (h : ¬(P a = true ∧ P b = true)) :
    (b :: a :: t).filter P = (a :: b :: t).filter P := by
  cases hPa : P a <;> cases hPb : P b <;> simp_all [List.filter]

lemma set_set_filter (P : α → Bool) :
    ∀ (l : List α) (j : Nat) (a b : α), l[j]? = some a → l[j + 1]? = some b →
      ¬(P a = true ∧ P b = true) →
      ((l.set j b).set (j + 1) a).filter P = l.filter P
  | [], j, a, b, ha, _, _ => by simp at ha
  | x :: t, 0, a, b, ha, hb, hP => by
    cases t with
    | nil => simp at hb
    | cons y t' =>
      simp only [List.getElem?_cons_zero, List.getElem?_cons_succ,
        Option.some.injEq] at ha hb
      subst ha; subst hb
      simpa [List.set] using filter_swap_adjacent P x y t' hP
  | x :: t, j + 1, a, b, ha, hb, hP => by
    simp only [List.getElem?_cons_succ] at ha hb
    simp only [List.set, List.filter]
    rw [set_set_filter P t j a b ha hb hP]

lemma bubbleStep_filter (key_index : α → K) (v : K) (l : List α) (j : Nat) :
    (bubbleStep key_index l j).filter (fun x => decide (key_index x = v)) =
      l.filter (fun x => decide (key_index x = v)) := by
  unfold bubbleStep
  cases ha : l[j]? with
  | none => rfl
  | some a =>
    cases hb : l[j + 1]? with
    | none => rfl
    | some b =>
      dsimp only
      split
      · rename_i hlt
        refine set_set_filter _ l j a b ha hb ?_
        rintro ⟨hPa, hPb⟩
        simp only [decide_eq_true_eq] at hPa hPb
        exact absurd (hPa.trans hPb.symm) (ne_of_gt hlt)
      · rfl

lemma bubble_sort_filter (data : List α) (key_index : α → K) (v : K) :
    (bubble_sort data key_index).filter (fun x => decide (key_index x = v)) =
      data.filter (fun x => decide (key_index x = v)) := by
  unfold bubble_sort
  generalize List.range data.length = is
  generalize data.length = n
  induction is generalizing data with
  | nil => rfl
  | cons i is ih =>
    simp only [List.foldl_cons]
    rw [ih (bubbleInner key_index data (n - i - 1))]
    unfold bubbleInner
    generalize List.range (n - i - 1) = js
    induction js generalizing data with
    | nil => rfl
    | cons j js ihj =>
      simp only [List.foldl_cons]
      rw [ihj (bubbleStep key_index data j)]
      exact bubbleStep_filter key_index v data j

end Stability

section SortClaims

variable {α : Type} {K : Type} [LinearOrder K]

/-- Claim C1: every one of the four sort algorithms is claimed to return a
sequence ordered by the caller-supplied key selector.  The code of
`heapsort` (src/tasks/task2.py lines 129-134) never uses its `key_func`
parameter, contradicting its own comment ("Heap sort implementation using a
key function"): at the failing input `data = [1, 2]` with key selector
`x ↦ -x`, the returned sequence is `[1, 2]`, whose adjacent keys violate
`key(seq[i]) ≤ key(seq[i+1])`. -/
theorem heapsort_key_order_fails_at_input :
    heapsort [(1 : ℤ), 2] (fun x => -x) = [1, 2] ∧
      ¬ List.Chain' (fun x y : ℤ => -x ≤ -y) (heapsort [(1 : ℤ), 2] (fun x => -x)) := by
  refine ⟨rfl, ?_⟩
  show ¬ List.Chain' (fun x y : ℤ => -x ≤ -y) [1, 2]
  simp only [List.chain'_cons, List.chain'_singleton, and_true]
  norm_num

/-- Claim C2: every benchmarked sort algorithm is claimed to be timed on its
own dataset scale.  The module-level driver (src/tasks/task2.py lines
159-160 and 165-166) passes `trips_small` to the heapsort timing calls of
both the MEDIUM and the LARGE scale: at datasets small = [0], medium = [1],
large = [2], the medium and large heap-sort slots both return the sorted
small dataset, not the sort of their own dataset. -/
theorem hs_benchmark_slots_use_small_dataset :
    hs_sorted_medium (0 : ℚ) 0 [(0 : ℤ)] [1] [2] (fun x => x) =
        heapsort [(0 : ℤ)] (fun x => x) ∧
      hs_sorted_medium (0 : ℚ) 0 [(0 : ℤ)] [1] [2] (fun x => x) ≠
        heapsort [(1 : ℤ)] (fun x => x) ∧
      hs_sorted_large (0 : ℚ) 0 [(0 : ℤ)] [1] [2] (fun x => x) =
        heapsort [(0 : ℤ)] (fun x => x) ∧
      hs_sorted_large (0 : ℚ) 0 [(0 : ℤ)] [1] [2] (fun x => x) ≠
        heapsort [(2 : ℤ)] (fun x => x) := by
  refine ⟨rfl, ?_, rfl, ?_⟩
  · show [(0 : ℤ)] ≠ [(1 : ℤ)]
    simp
  · show [(0 : ℤ)] ≠ [(2 : ℤ)]
    simp

/-- Claim C4, counterexample: merge sort is claimed stable with ties taking
the left half's element first, but the merge loop (src/tasks/task2.py line
58) uses a strict `<`, so equal keys take the RIGHT half's element: on the
input `[(0,5), (1,5)]` keyed by the second component, the two equal-key
records come back in reversed relative order. -/
theorem merge_sort_unstable :
    merge_sort [((0 : ℕ), (5 : ℕ)), (1, 5)] (fun x => x.2) = [(1, 5), (0, 5)] ∧
      (merge_sort [((0 : ℕ), (5 : ℕ)), (1, 5)] (fun x => x.2)).filter
          (fun x => decide (x.2 = 5)) ≠
        [((0 : ℕ), (5 : ℕ)), (1, 5)].filter (fun x => decide (x.2 = 5)) := by
  have h : merge_sort [((0 : ℕ), (5 : ℕ)), (1, 5)] (fun x => x.2) = [(1, 5), (0, 5)] := by
    simp [merge_sort, mergeLoop]
  exact ⟨h, by rw [h]; decide⟩

/-- Claim C4 (amended): bubble sort is stable — for every key value the
subsequence of records carrying that key is unchanged — while merge sort is
NOT stable: when the heads of the two halves have equal keys, the merge loop
takes the RIGHT half's element first. -/
theorem bubble_stable_merge_takes_right (data : List α) (key_index : α → K)
    (v : K) (a b : α) (ls rs : List α) (hab : key_index a = key_index b) :
    (bubble_sort data key_index).filter (fun x => decide (key_index x = v)) =
        data.filter (fun x => decide (key_index x = v)) ∧
      mergeLoop key_index (a :: ls) (b :: rs) = b :: mergeLoop key_index (a :: ls) rs := by
  refine ⟨bubble_sort_filter data key_index v, ?_⟩
  rw [mergeLoop, if_neg (by rw [hab]; exact lt_irrefl _)]

/-- Witness for the amended claim C4 at a concrete input. -/
theorem bubble_stable_merge_takes_right_witness :
    (bubble_sort [((0 : ℕ), (5 : ℕ)), (1, 5)] (fun x => x.2)).filter
          (fun x => decide (x.2 = 5)) =
        [((0 : ℕ), (5 : ℕ)), (1, 5)].filter (fun x => decide (x.2 = 5)) ∧
      mergeLoop (fun x : ℕ × ℕ => x.2) [(0, 5)] [(1, 5)] =
        (1, 5) :: mergeLoop (fun x : ℕ × ℕ => x.2) [(0, 5)] [] :=
  bubble_stable_merge_takes_right [(0, 5), (1, 5)] (fun x => x.2) 5 (0, 5) (1, 5)
    [] [] rfl

/-- Claim C5: for every input sequence and key selector, each of the four
sort algorithms returns a permutation of its input — the multiset of output
records equals the multiset of input records. -/
theorem sorts_preserve_multiset [LinearOrder α] (data : List α) (key : α → K) :
    ((bubble_sort data key : List α) : Multiset α) = (data : Multiset α) ∧
      ((merge_sort data key : List α) : Multiset α) = (data : Multiset α) ∧
      ((quicksort data key : List α) : Multiset α) = (data : Multiset α) ∧
      ((heapsort data key : List α) : Multiset α) = (data : Multiset α) := by
  refine ⟨?_, ?_, ?_, ?_⟩ <;> rw [Multiset.coe_eq_coe]
  · exact bubble_sort_perm data key
  · exact merge_sort_perm data key
  · exact quicksort_perm data key
  · exact heapsort_perm data key

/-- Claim C8: the timing harness returns the elapsed difference of its two
clock readings — nonnegative whenever the clock does not run backwards
between the reads — paired with exactly the result of one application of the
algorithm to the given data and key; it retries nothing, alters nothing and
catches nothing, also on the empty sequence. -/
theorem time_sorting_algorithm_spec (start_time end_time : ℚ)
    (h : start_time ≤ end_time) (algorithm : List α → (α → K) → List α)
    (data : List α) (key_func : α → K) :
    0 ≤ (time_sorting_algorithm start_time end_time algorithm data key_func).1 ∧
      (time_sorting_algorithm start_time end_time algorithm data key_func).2 =
        algorithm data key_func :=
  ⟨sub_nonneg.2 h, rfl⟩

/-- Witness for claim C8 on the empty sequence with concrete clock reads. -/
theorem time_sorting_algorithm_spec_witness :
    0 ≤ (time_sorting_algorithm 0 1 heapsort ([] : List ℤ) (fun x => x)).1 ∧
      (time_sorting_algorithm 0 1 heapsort ([] : List ℤ) (fun x => x)).2 =
        heapsort ([] : List ℤ) (fun x => x) :=
  time_sorting_algorithm_spec 0 1 (by norm_num) heapsort [] (fun x => x)

/-- Claim C9: the output of `heapsort` does not depend on its `key_func`
parameter — any two key selectors, even into different key types, give the
same result — and that result is sorted by the records' own order (for
Python tuples, the lexicographic tuple order), not by the key selector. -/
theorem heapsort_ignores_key {K2 : Type} [LinearOrder α] [LinearOrder K2]
    (data : List α) (k1 : α → K) (k2 : α → K2) :
    heapsort data k1 = heapsort data k2 ∧ (heapsort data k1).Sorted (· ≤ ·) :=
  ⟨rfl, heapsort_sorted data k1⟩

end SortClaims

section GraphBuilder

/-- Canonical representative of the unordered node pair of a networkx edge:
networkx `Graph` edges are keyed by the unordered pair, so `add_edge(u, v)`
and `add_edge(v, u)` address the same edge. -/
def pairKey (u v : Nat) : Nat × Nat := (min u v, max u v)

/-- Embedding of the networkx `Graph` object as the trip-graph builder uses
it: a node list in insertion order and an association list from the
unordered-pair key of each edge to its `weight` attribute.  The `name`
attribute attached to nodes is carried nowhere into the algorithms under
verification and is dropped by the embedding. -/
structure NXGraph where
  nodes : List Nat
  edges : List ((Nat × Nat) × Nat)
deriving DecidableEq, Repr

/-- Embeds networkx `add_node`: adds the node unless it is already present. -/
def addNode (g : NXGraph) (n : Nat) : NXGraph :=
  if n ∈ g.nodes then g else { g with nodes := g.nodes ++ [n] }

/-- Updates the weight attribute stored under an unordered-pair key,
overwriting the previous value if the edge already exists (networkx
`add_edge` semantics), else appending the new edge. -/
def setEdgeWeight : List ((Nat × Nat) × Nat) → Nat × Nat → Nat → List ((Nat × Nat) × Nat)
  | [], k, w => [(k, w)]
  | (k', w') :: rest, k, w =>
    if k' = k then (k, w) :: rest else (k', w') :: setEdgeWeight rest k w

/-- Embeds networkx `add_edge(u, v, weight=w)`: ensures both endpoints are
nodes and stores `w` as the weight of the unordered edge `{u, v}`,
overwriting any weight that edge already had. -/
def addEdge (g : NXGraph) (u v : Nat) (w : Nat) : NXGraph :=
  let g1 := addNode (addNode g u) v
  { g1 with edges := setEdgeWeight g1.edges (pairKey u v) w }

/-- Weight attribute of the unordered edge `{u, v}`, `none` when the graph
has no such edge. -/
def edgeWeight (g : NXGraph) (u v : Nat) : Option Nat :=
  go g.edges (pairKey u v)
where
  go : List ((Nat × Nat) × Nat) → Nat × Nat → Option Nat
    | [], _ => none
    | (k', w') :: rest, k => if k' = k then some w' else go rest k

/-- Embeds `trip_counts[(pickup, dropoff)] += 1` on the
`defaultdict(int)` of `build_graph` (src/tasks/task3.py line 71): a missing
key is appended with count 1 (dict insertion order), an existing key is
incremented in place. -/
def bumpCount : List ((Nat × Nat) × Nat) → Nat × Nat → List ((Nat × Nat) × Nat)
  | [], k => [(k, 1)]
  | (k', c) :: rest, k =>
    if k' = k then (k', c + 1) :: rest else (k', c) :: bumpCount rest k

/-- Embeds one iteration of the counting loop of `build_graph`
(src/tasks/task3.py lines 69-71): `if pickup and dropoff:` uses Python
truthiness, which is false when either id is `None` or the integer `0`, so
such pairs are skipped; otherwise the DIRECTED pair `(pickup, dropoff)` is
counted. -/
def countTrip (counts : List ((Nat × Nat) × Nat)) (pd : Option Nat × Option Nat) :
    List ((Nat × Nat) × Nat) :=
  match pd with
  | (some pickup, some dropoff) =>
    if pickup ≠ 0 ∧ dropoff ≠ 0 then bumpCount counts (pickup, dropoff) else counts
  | _ => counts

/-- The `trip_counts` dictionary of `build_graph` after the counting loop,
as an insertion-ordered association list over directed pairs. -/
def tripCounts (taxi_data : List (Option Nat × Option Nat)) :
    List ((Nat × Nat) × Nat) :=
  taxi_data.foldl countTrip []

/-- Embeds `build_graph(taxi_data, taxi_zone_lookup)` (src/tasks/task3.py
lines 50-77): add one node per zone-lookup key, count directed trips with
the truthiness filter, then `add_edge(pickup, dropoff, weight=count)` for
every counted directed pair in insertion order — later orientations of the
same unordered pair overwrite the weight stored by earlier ones. -/
def build_graph (taxi_data : List (Option Nat × Option Nat))
    (taxi_zone_lookup : List (Nat × String)) : NXGraph :=
  let g1 := taxi_zone_lookup.foldl (fun g zn => addNode g zn.1)
    { nodes := [], edges := [] }
  (tripCounts taxi_data).foldl (fun g kc => addEdge g kc.1.1 kc.1.2 kc.2) g1

end GraphBuilder

section GraphBuilderLemmas

lemma foldl_countTrip_replicate (a b : Nat) (ha : a ≠ 0) (hb : b ≠ 0) :
    ∀ (m c : Nat),
      (List.replicate m ((some a : Option Nat), (some b : Option Nat))).foldl
        countTrip [((a, b), c)] = [((a, b), c + m)]
  | 0, c => by simp
  | m + 1, c => by
    rw [List.replicate_succ, List.foldl_cons]
    have hstep : countTrip [((a, b), c)] (some a, some b) = [((a, b), c + 1)] := by
      simp [countTrip, bumpCount, ha, hb]
    rw [hstep, foldl_countTrip_replicate a b ha hb m (c + 1)]
    congr 2
    omega

lemma tripCounts_replicate (a b : Nat) (ha : a ≠ 0) (hb : b ≠ 0) (k : Nat) :
    tripCounts (List.replicate (k + 1) (some a, some b)) = [((a, b), k + 1)] := by
  rw [tripCounts, List.replicate_succ, List.foldl_cons]
  have hstep : countTrip [] (some a, some b) = [((a, b), 1)] := by
    simp [countTrip, bumpCount, ha, hb]
  rw [hstep, foldl_countTrip_replicate a b ha hb k 1]
  congr 2
  omega

lemma addNode_edges (g : NXGraph) (n : Nat) : (addNode g n).edges = g.edges := by
  unfold addNode
  split <;> rfl

lemma foldl_addNode_edges (lookup : List (Nat × String)) (g : NXGraph) :
    (lookup.foldl (fun g zn => addNode g zn.1) g).edges = g.edges := by
  induction lookup generalizing g with
  | nil => rfl
  | cons zn lookup ih =>
    rw [List.foldl_cons, ih, addNode_edges]

lemma addNode_mem (g : NXGraph) (n m : Nat) (h : m ∈ g.nodes) :
    m ∈ (addNode g n).nodes := by
  unfold addNode
  split
  · exact h
  · simp [h]

lemma addNode_self_mem (g : NXGraph) (n : Nat) : n ∈ (addNode g n).nodes := by
  unfold addNode
  split
  · assumption
  · simp

lemma addEdge_mem (g : NXGraph) (u v w m : Nat) (h : m ∈ g.nodes) :
    m ∈ (addEdge g u v w).nodes :=
  addNode_mem _ v m (addNode_mem g u m h)

lemma foldl_addNode_mem (lookup : List (Nat × String)) (g : NXGraph) (n : Nat)
    (h : n ∈ lookup.map Prod.fst ∨ n ∈ g.nodes) :
    n ∈ (lookup.foldl (fun g zn => addNode g zn.1) g).nodes := by
  induction lookup generalizing g with
  | nil => simpa using h
  | cons zn lookup ih =>
    rw [List.foldl_cons]
    rcases h with h | h
    · simp only [List.map_cons, List.mem_cons] at h
      rcases h with h | h
      · exact ih (addNode g zn.1) (Or.inr (h ▸ addNode_self_mem g zn.1))
      · exact ih (addNode g zn.1) (Or.inl h)
    · exact ih (addNode g zn.1) (Or.inr (addNode_mem g zn.1 n h))

lemma mem_setEdgeWeight (es : List ((Nat × Nat) × Nat)) (k : Nat × Nat) (w : Nat) :
    ∀ e ∈ setEdgeWeight es k w, e.1 = k ∨ e ∈ es := by
  induction es with
  | nil => intro e he; simp [setEdgeWeight] at he; simp [he]
  | cons e' es ih =>
    intro e he
    rw [setEdgeWeight] at he
    split at he
    · rcases List.mem_cons.1 he with he | he
      · left; simp [he]
      · right; exact List.mem_cons_of_mem _ he
    · rcases List.mem_cons.1 he with he | he
      · right; exact he ▸ List.mem_cons_self _ _
      · rcases ih e he with h | h
        · left; exact h
        · right; exact List.mem_cons_of_mem _ h

lemma mem_bumpCount (counts : List ((Nat × Nat) × Nat)) (k : Nat × Nat) :
    ∀ e ∈ bumpCount counts k, e.1 = k ∨ e ∈ counts := by
  induction counts with
  | nil => intro e he; simp [bumpCount] at he; simp [he]
  | cons e' counts ih =>
    intro e he
    rw [bumpCount] at he
    split at he
    · rename_i hk
      rcases List.mem_cons.1 he with he | he
      · left; rw [he]; exact hk
      · right; exact List.mem_cons_of_mem _ he
    · rcases List.mem_cons.1 he with he | he
      · right; exact he ▸ List.mem_cons_self _ _
      · rcases ih e he with h | h
        · left; exact h
        · right; exact List.mem_cons_of_mem _ h

lemma countTrip_valid (counts : List ((Nat × Nat) × Nat))
    (pd : Option Nat × Option Nat)
    (h : ∀ e ∈ counts, e.1.1 ≠ 0 ∧ e.1.2 ≠ 0) :
    ∀ e ∈ countTrip counts pd, e.1.1 ≠ 0 ∧ e.1.2 ≠ 0 := by
  unfold countTrip
  match pd with
  | (some pickup, some dropoff) =>
    dsimp only
    split
    · rename_i hpd
      intro e he
      rcases mem_bumpCount counts (pickup, dropoff) e he with h' | h'
      · rw [h']; exact hpd
      · exact h e h'
    · exact h
  | (some _, none) => exact h
  | (none, _) => exact h

lemma tripCounts_valid (taxi_data : List (Option Nat × Option Nat)) :
    ∀ e ∈ tripCounts taxi_data, e.1.1 ≠ 0 ∧ e.1.2 ≠ 0 := by
  rw [tripCounts]
  have h : ∀ (counts : List ((Nat × Nat) × Nat)),
      (∀ e ∈ counts, e.1.1 ≠ 0 ∧ e.1.2 ≠ 0) →
      ∀ e ∈ taxi_data.foldl countTrip counts, e.1.1 ≠ 0 ∧ e.1.2 ≠ 0 := by
    induction taxi_data with
    | nil => intro counts h; simpa using h
    | cons pd taxi_data ih =>
      intro counts h
      rw [List.foldl_cons]
      exact ih _ (countTrip_valid counts pd h)
  exact h [] (by simp)

lemma edgeWeight_go_eq_none (es : List ((Nat × Nat) × Nat)) (k : Nat × Nat)
    (h : ∀ e ∈ es, e.1 ≠ k) : edgeWeight.go es k = none := by
  induction es with
  | nil => rfl
  | cons e es ih =>
    rw [edgeWeight.go]
    rw [if_neg (h e (List.mem_cons_self _ _))]
    exact ih fun e' he' => h e' (List.mem_cons_of_mem _ he')

lemma build_graph_edges_valid (taxi_data : List (Option Nat × Option Nat))
    (lookup : List (Nat × String)) :
    ∀ e ∈ (build_graph taxi_data lookup).edges, e.1.1 ≠ 0 := by
  rw [build_graph]
  have hbase : ∀ e ∈ (lookup.foldl (fun g zn => addNode g zn.1)
      { nodes := [], edges := [] } : NXGraph).edges, e.1.1 ≠ 0 := by
    rw [foldl_addNode_edges]
    simp
  have hmain : ∀ (kcs : List ((Nat × Nat) × Nat)) (g : NXGraph),
      (∀ kc ∈ kcs, kc.1.1 ≠ 0 ∧ kc.1.2 ≠ 0) →
      (∀ e ∈ g.edges, e.1.1 ≠ 0) →
      ∀ e ∈ (kcs.foldl (fun g kc => addEdge g kc.1.1 kc.1.2 kc.2) g).edges,
        e.1.1 ≠ 0 := by
    intro kcs
    induction kcs with
    | nil => intro g _ hg; simpa using hg
    | cons kc kcs ih =>
      intro g hkcs hg
      rw [List.foldl_cons]
      refine ih _ (fun kc' h' => hkcs kc' (List.mem_cons_of_mem _ h')) ?_
      intro e he
      rw [addEdge] at he
      rcases mem_setEdgeWeight _ _ _ e he with h' | h'
      · rw [h', pairKey]
        have := hkcs kc (List.mem_cons_self _ _)
        simp only [ne_eq]
        omega
      · rw [addNode_edges, addNode_edges] at h'
        exact hg e h'
  exact hmain (tripCounts taxi_data) _ (tripCounts_valid taxi_data) hbase

end GraphBuilderLemmas

section GraphBuilderClaims

/-- Claim C3, counterexample: the claim says the weight of an unordered pair
is the total number of observed trips regardless of direction, and in the
example scenario `[(1,2), (2,1), (3,3), (4,None)]` predicts weight 2 for the
edge `{1,2}`; but `build_graph` counts DIRECTED pairs and `add_edge`
overwrites the weight of the same unordered edge, so the built graph
carries weight 1 on `{1,2}`, not 2. -/
theorem build_graph_weight_counterexample :
    edgeWeight (build_graph
        [(some 1, some 2), (some 2, some 1), (some 3, some 3), (some 4, none)]
        [(1, "A"), (2, "B"), (3, "C"), (4, "D")]) 1 2 = some 1 ∧
      edgeWeight (build_graph
        [(some 1, some 2), (some 2, some 1), (some 3, some 3), (some 4, none)]
        [(1, "A"), (2, "B"), (3, "C"), (4, "D")]) 1 2 ≠ some 2 := by
  refine ⟨rfl, ?_⟩
  show (some 1 : Option Nat) ≠ some 2
  simp

/-- Claim C3 (amended): observing the same DIRECTED pair k times yields edge
weight k; with both orientations present the stored weight is that of the
orientation whose first occurrence comes last (weight 1, not 2, in the
example scenario); the rest of the example stands: nodes {1,2,3,4},
self-loop (3,3) with weight 1, and node 4 isolated. -/
theorem build_graph_weights (lookup : List (Nat × String)) (a b k v : Nat)
    (ha : a ≠ 0) (hb : b ≠ 0) :
    edgeWeight (build_graph (List.replicate (k + 1) (some a, some b)) lookup) a b
        = some (k + 1) ∧
      (build_graph
        [(some 1, some 2), (some 2, some 1), (some 3, some 3), (some 4, none)]
        [(1, "A"), (2, "B"), (3, "C"), (4, "D")]).nodes = [1, 2, 3, 4] ∧
      edgeWeight (build_graph
        [(some 1, some 2), (some 2, some 1), (some 3, some 3), (some 4, none)]
        [(1, "A"), (2, "B"), (3, "C"), (4, "D")]) 3 3 = some 1 ∧
      edgeWeight (build_graph
        [(some 1, some 2), (some 2, some 1), (some 3, some 3), (some 4, none)]
        [(1, "A"), (2, "B"), (3, "C"), (4, "D")]) 4 v = none := by
  refine ⟨?_, rfl, rfl, ?_⟩
  · rw [build_graph, tripCounts_replicate a b ha hb k]
    rw [List.foldl_cons, List.foldl_nil, addEdge, edgeWeight]
    dsimp only
    rw [addNode_edges, addNode_edges, foldl_addNode_edges]
    dsimp only
    rw [setEdgeWeight, edgeWeight.go, if_pos rfl]
  · have hg : build_graph
        [(some 1, some 2), (some 2, some 1), (some 3, some 3), (some 4, none)]
        [(1, "A"), (2, "B"), (3, "C"), (4, "D")] =
        { nodes := [1, 2, 3, 4], edges := [((1, 2), 1), ((3, 3), 1)] } := rfl
    rw [hg, edgeWeight]
    apply edgeWeight_go_eq_none
    intro e he hq
    have h4 : 4 ≤ max 4 v := le_max_left 4 v
    rcases List.mem_cons.1 he with he | he
    · rw [he] at hq
      rw [pairKey, Prod.ext_iff] at hq
      simp only at hq
      omega
    · rcases List.mem_cons.1 he with he | he
      · rw [he] at hq
        rw [pairKey, Prod.ext_iff] at hq
        simp only at hq
        omega
      · simp at he

/-- Witness for the amended claim C3 at concrete inputs. -/
theorem build_graph_weights_witness :
    edgeWeight (build_graph (List.replicate 1 (some 1, some 2)) []) 1 2 = some 1 ∧
      (build_graph
        [(some 1, some 2), (some 2, some 1), (some 3, some 3), (some 4, none)]
        [(1, "A"), (2, "B"), (3, "C"), (4, "D")]).nodes = [1, 2, 3, 4] ∧
      edgeWeight (build_graph
        [(some 1, some 2), (some 2, some 1), (some 3, some 3), (some 4, none)]
        [(1, "A"), (2, "B"), (3, "C"), (4, "D")]) 3 3 = some 1 ∧
      edgeWeight (build_graph
        [(some 1, some 2), (some 2, some 1), (some 3, some 3), (some 4, none)]
        [(1, "A"), (2, "B"), (3, "C"), (4, "D")]) 4 0 = none :=
  build_graph_weights [] 1 2 0 0 (by simp) (by simp)

/-- Claim C10: `build_graph` drops every (pickup, dropoff) pair in which
either id is `None` or `0` (Python truthiness of `if pickup and dropoff`),
so a pair mentioning location id 0 contributes no edge and no weight, and
when 0 is a key of the zone-name mapping it appears only as an isolated
node: it is a node of the graph and no edge is incident to it. -/
theorem build_graph_drops_none_and_zero
    (pre post data : List (Option Nat × Option Nat)) (lookup : List (Nat × String))
    (p d : Option Nat) (v : Nat)
    (h : p = none ∨ p = some 0 ∨ d = none ∨ d = some 0)
    (h0 : 0 ∈ lookup.map Prod.fst) :
    build_graph (pre ++ (p, d) :: post) lookup = build_graph (pre ++ post) lookup ∧
      0 ∈ (build_graph data lookup).nodes ∧
      edgeWeight (build_graph data lookup) 0 v = none := by
  refine ⟨?_, ?_, ?_⟩
  · have hskip : ∀ counts, countTrip counts (p, d) = counts := by
      intro counts
      rcases h with h | h | h | h <;> subst h
      · rfl
      · cases d with
        | none => rfl
        | some dv => simp [countTrip]
      · cases p with
        | none => rfl
        | some pv => rfl
      · cases p with
        | none => rfl
        | some pv => simp [countTrip]
    have hcounts : tripCounts (pre ++ (p, d) :: post) = tripCounts (pre ++ post) := by
      rw [tripCounts, tripCounts, List.foldl_append, List.foldl_append,
        List.foldl_cons, hskip]
    rw [build_graph, build_graph, hcounts]
  · rw [build_graph]
    have hbase : 0 ∈ (lookup.foldl (fun g zn => addNode g zn.1)
        { nodes := [], edges := [] } : NXGraph).nodes :=
      foldl_addNode_mem lookup _ 0 (Or.inl h0)
    have hmain : ∀ (kcs : List ((Nat × Nat) × Nat)) (g : NXGraph), 0 ∈ g.nodes →
        0 ∈ (kcs.foldl (fun g kc => addEdge g kc.1.1 kc.1.2 kc.2) g).nodes := by
      intro kcs
      induction kcs with
      | nil => intro g hg; simpa using hg
      | cons kc kcs ih =>
        intro g hg
        rw [List.foldl_cons]
        exact ih _ (addEdge_mem g _ _ _ 0 hg)
    exact hmain _ _ hbase
  · rw [edgeWeight]
    apply edgeWeight_go_eq_none
    intro e he hq
    have := build_graph_edges_valid data lookup e he
    rw [hq, pairKey] at this
    simp only at this
    omega

/-- Witness for claim C10 at concrete inputs. -/
theorem build_graph_drops_none_and_zero_witness :
    build_graph ([] ++ (some 0, some 1) :: []) [(0, "Z"), (1, "A")] =
        build_graph ([] ++ []) [(0, "Z"), (1, "A")] ∧
      0 ∈ (build_graph [(some 0, some 1)] [(0, "Z"), (1, "A")]).nodes ∧
      edgeWeight (build_graph [(some 0, some 1)] [(0, "Z"), (1, "A")]) 0 1 = none :=
  build_graph_drops_none_and_zero [] [] [(some 0, some 1)] [(0, "Z"), (1, "A")]
    (some 0) (some 1) 1 (by simp) (by simp)

end GraphBuilderClaims

section Traversal

/-- Embedding of a networkx undirected graph as the connected-component
algorithms consume it: the node list (the iteration order of `graph.nodes`)
and an adjacency function (`graph.neighbors`).  The bundled facts are
invariants every networkx `Graph` object satisfies: each node is listed
once, neighbor lists hold no duplicates and mention only nodes of the
graph, and adjacency is symmetric because edges are undirected. -/
structure Graph where
  nodes : List Nat
  adj : Nat → List Nat
  nodes_nodup : nodes.Nodup
  adj_nodup : ∀ u, (adj u).Nodup
  adj_mem : ∀ u v, v ∈ adj u → v ∈ nodes
  adj_symm : ∀ u v, v ∈ adj u → u ∈ adj v

/-- Embeds the `while stack:` loop of the inner `dfs` function of
`find_connected_components_dfs` (src/tasks/task3.py lines 116-124).  The
Python list is used as a stack popped from its end and extended at its end;
the embedding keeps the top of the stack at the head of the list, so
`stack.extend(set(graph.neighbors(current)) - visited)` becomes prepending
the reversed list of unvisited neighbors.  Python iterates a set in an
unspecified order; the embedding fixes the neighbor-list order, on which the
membership-level properties proved below do not depend.  The returned pair
is the visited set and the collected component, both as the loop leaves
them. -/
def dfsLoop (g : Graph) (visited : Finset Nat) (stack component : List Nat) :
    Finset Nat × List Nat :=
  match stack with
  | [] => (visited, component)
  | current :: rest =>
    if current ∈ visited then
      dfsLoop g visited rest component
    else
      dfsLoop g (insert current visited)
        (((g.adj current).filter
            (fun v => decide (v ∉ insert current visited))).reverse ++ rest)
        (component ++ [current])
termination_by
  (((g.nodes.toFinset ∪ stack.toFinset) \ visited).card, stack.length)
decreasing_by
  · have he : (g.nodes.toFinset ∪ rest.toFinset) \ visited =
        (g.nodes.toFinset ∪ (current :: rest).toFinset) \ visited := by
      ext x
      simp only [Finset.mem_sdiff, Finset.mem_union, List.mem_toFinset,
        List.mem_cons]
      constructor
      · rintro ⟨h1, h2⟩
        exact ⟨h1.imp_right Or.inr, h2⟩
      · rintro ⟨h1, h2⟩
        refine ⟨?_, h2⟩
        rcases h1 with h1 | h1 | h1
        · exact Or.inl h1
        · exact absurd (h1 ▸ (by assumption : current ∈ visited)) h2
        · exact Or.inr h1
    rw [he]
    exact Prod.Lex.right _ (Nat.lt_succ_self _)
  · rename_i hcv
    apply Prod.Lex.left
    have hcur : current ∈ (g.nodes.toFinset ∪ (current :: rest).toFinset) \ visited := by
      simp only [Finset.mem_sdiff, Finset.mem_union, List.mem_toFinset,
        List.mem_cons]
      exact ⟨Or.inr (Or.inl trivial), hcv⟩
    refine lt_of_le_of_lt (Finset.card_le_card ?_)
      (Finset.card_erase_lt_of_mem hcur)
    intro x hx
    simp only [Finset.mem_sdiff, Finset.mem_union, List.mem_toFinset,
      Finset.mem_insert, not_or, List.mem_append, List.mem_reverse,
      List.mem_filter, decide_eq_true_eq] at hx
    rcases hx with ⟨h1, h2, h3⟩
    simp only [Finset.mem_erase, Finset.mem_sdiff, Finset.mem_union,
      List.mem_toFinset, List.mem_cons]
    refine ⟨h2, ?_, h3⟩
    rcases h1 with h1 | h1 | h1
    · exact Or.inl h1
    · exact Or.inl (g.adj_mem current x h1.1)
    · exact Or.inr (Or.inr h1)

/-- Embeds the `for node in graph.nodes:` loop of
`find_connected_components_dfs` (src/tasks/task3.py lines 126-128): for
every node not yet visited, run the stack loop from that node and append
the collected component. -/
def dfsOuter (g : Graph) (visited : Finset Nat) : List Nat → List (List Nat)
  | [] => []
  | n :: ns =>
    if n ∈ visited then dfsOuter g visited ns
    else (dfsLoop g visited [n] []).2 :: dfsOuter g (dfsLoop g visited [n] []).1 ns

/-- Embeds `find_connected_components_dfs(graph)` (src/tasks/task3.py lines
93-130): a fresh empty visited set, then the root loop over `graph.nodes`. -/
def find_connected_components_dfs (g : Graph) : List (List Nat) :=
  dfsOuter g ∅ g.nodes

/-- Embeds the `while queue:` loop of the inner `bfs` function of
`find_connected_components_bfs` (src/tasks/task3.py lines 156-164): the
deque is popped from the front (`popleft`) and extended at the back, so the
head of the embedded list is the front of the queue.  As for the DFS loop,
the unspecified iteration order of the Python set of unvisited neighbors is
fixed to the neighbor-list order. -/
def bfsLoop (g : Graph) (visited : Finset Nat) (queue component : List Nat) :
    Finset Nat × List Nat :=
  match queue with
  | [] => (visited, component)
  | current :: rest =>
    if current ∈ visited then
      bfsLoop g visited rest component
    else
      bfsLoop g (insert current visited)
        (rest ++ (g.adj current).filter
          (fun v => decide (v ∉ insert current visited)))
        (component ++ [current])
termination_by
  (((g.nodes.toFinset ∪ queue.toFinset) \ visited).card, queue.length)
decreasing_by
  · have he : (g.nodes.toFinset ∪ rest.toFinset) \ visited =
        (g.nodes.toFinset ∪ (current :: rest).toFinset) \ visited := by
      ext x
      simp only [Finset.mem_sdiff, Finset.mem_union, List.mem_toFinset,
        List.mem_cons]
      constructor
      · rintro ⟨h1, h2⟩
        exact ⟨h1.imp_right Or.inr, h2⟩
      · rintro ⟨h1, h2⟩
        refine ⟨?_, h2⟩
        rcases h1 with h1 | h1 | h1
        · exact Or.inl h1
        · exact absurd (h1 ▸ (by assumption : current ∈ visited)) h2
        · exact Or.inr h1
    rw [he]
    exact Prod.Lex.right _ (Nat.lt_succ_self _)
  · rename_i hcv
    apply Prod.Lex.left
    have hcur : current ∈ (g.nodes.toFinset ∪ (current :: rest).toFinset) \ visited := by
      simp only [Finset.mem_sdiff, Finset.mem_union, List.mem_toFinset,
        List.mem_cons]
      exact ⟨Or.inr (Or.inl trivial), hcv⟩
    refine lt_of_le_of_lt (Finset.card_le_card ?_)
      (Finset.card_erase_lt_of_mem hcur)
    intro x hx
    simp only [Finset.mem_sdiff, Finset.mem_union, List.mem_toFinset,
      Finset.mem_insert, not_or, List.mem_append, List.mem_filter,
      decide_eq_true_eq] at hx
    rcases hx with ⟨h1, h2, h3⟩
    simp only [Finset.mem_erase, Finset.mem_sdiff, Finset.mem_union,
      List.mem_toFinset, List.mem_cons]
    refine ⟨h2, ?_, h3⟩
    rcases h1 with h1 | h1 | h1
    · exact Or.inl h1
    · exact Or.inr (Or.inr h1)
    · exact Or.inl (g.adj_mem current x h1.1)

/-- Embeds the `for node in graph.nodes:` loop of
`find_connected_components_bfs` (src/tasks/task3.py lines 166-168). -/
def bfsOuter (g : Graph) (visited : Finset Nat) : List Nat → List (List Nat)
  | [] => []
  | n :: ns =>
    if n ∈ visited then bfsOuter g visited ns
    else (bfsLoop g visited [n] []).2 :: bfsOuter g (bfsLoop g visited [n] []).1 ns

/-- Embeds `find_connected_components_bfs(graph)` (src/tasks/task3.py lines
133-170). -/
def find_connected_components_bfs (g : Graph) : List (List Nat) :=
  bfsOuter g ∅ g.nodes

/-- Two nodes are connected when a chain of neighbor steps joins them. -/
def Reachable (g : Graph) : Nat → Nat → Prop :=
  Relation.ReflTransGen (fun u v => v ∈ g.adj u)

/-- Modelled from the spec: `find_connected_components_networkx` wraps
`networkx.connected_components`, whose implementation is external library
code treated by the specification as the opaque reference oracle; per the
specification it returns the component partition of the graph — one set of
nodes per reachability class, represented here as the family of
reachability classes of the graph's nodes. -/
def find_connected_components_networkx (g : Graph) : Set (Set Nat) :=
  { S | ∃ v ∈ g.nodes, S = { u | Reachable g v u } }

end Traversal

section ReachabilityLemmas

lemma reach_mem (g : Graph) {u v : Nat} (hu : u ∈ g.nodes) (h : Reachable g u v) :
    v ∈ g.nodes := by
  induction h with
  | refl => exact hu
  | tail hab hbc ih => exact g.adj_mem _ _ hbc

lemma reach_symm (g : Graph) {u v : Nat} (h : Reachable g u v) : Reachable g v u :=
  Relation.ReflTransGen.symmetric (fun a b hab => g.adj_symm a b hab) h

/-- A visited set closed under taking neighbors. -/
def ClosedSet (g : Graph) (A : Finset Nat) : Prop :=
  ∀ u ∈ A, ∀ v ∈ g.adj u, v ∈ A

lemma reach_closed (g : Graph) {A : Finset Nat} (hA : ClosedSet g A) {u v : Nat}
    (hu : u ∈ A) (h : Reachable g u v) : v ∈ A := by
  induction h with
  | refl => exact hu
  | tail hab hbc ih => exact hA _ ih _ hbc

end ReachabilityLemmas

section DfsLemmas

lemma dfsLoop_visited_subset (g : Graph) :
    ∀ (visited : Finset Nat) (stack component : List Nat),
      visited ⊆ (dfsLoop g visited stack component).1 := by
  intro visited stack component
  induction visited, stack, component using dfsLoop.induct g with
  | case1 visited component => rw [dfsLoop]
  | case2 visited component current rest hcv ih =>
    rw [dfsLoop, if_pos hcv]; exact ih
  | case3 visited component current rest hcv ih =>
    rw [dfsLoop, if_neg hcv]
    exact (Finset.subset_insert current visited).trans ih

lemma dfsLoop_stack_visited (g : Graph) :
    ∀ (visited : Finset Nat) (stack component : List Nat),
      ∀ s ∈ stack, s ∈ (dfsLoop g visited stack component).1 := by
  intro visited stack component
  induction visited, stack, component using dfsLoop.induct g with
  | case1 visited component => intro s hs; simp at hs
  | case2 visited component current rest hcv ih =>
    intro s hs
    rw [dfsLoop, if_pos hcv]
    rcases List.mem_cons.1 hs with hs | hs
    · exact dfsLoop_visited_subset g _ _ _ (hs ▸ hcv)
    · exact ih s hs
  | case3 visited component current rest hcv ih =>
    intro s hs
    rw [dfsLoop, if_neg hcv]
    rcases List.mem_cons.1 hs with hs | hs
    · exact dfsLoop_visited_subset g _ _ _ (hs ▸ Finset.mem_insert_self current visited)
    · exact ih s (List.mem_append_right _ hs)

lemma dfsLoop_closed (g : Graph) :
    ∀ (visited : Finset Nat) (stack component : List Nat),
      (∀ u ∈ visited, ∀ v ∈ g.adj u, v ∈ visited ∨ v ∈ stack) →
      ∀ u ∈ (dfsLoop g visited stack component).1, ∀ v ∈ g.adj u,
        v ∈ (dfsLoop g visited stack component).1 := by
  intro visited stack component
  induction visited, stack, component using dfsLoop.induct g with
  | case1 visited component =>
    intro hinv u hu v hv
    rw [dfsLoop] at hu ⊢
    rcases hinv u hu v hv with h | h
    · exact h
    · simp at h
  | case2 visited component current rest hcv ih =>
    intro hinv
    rw [dfsLoop, if_pos hcv]
    apply ih
    intro u hu v hv
    rcases hinv u hu v hv with h | h
    · exact Or.inl h
    · rcases List.mem_cons.1 h with h | h
      · exact Or.inl (h ▸ hcv)
      · exact Or.inr h
  | case3 visited component current rest hcv ih =>
    intro hinv
    rw [dfsLoop, if_neg hcv]
    apply ih
    intro u hu v hv
    rcases Finset.mem_insert.1 hu with hu | hu
    · subst hu
      by_cases hvi : v ∈ insert u visited
      · exact Or.inl hvi
      · refine Or.inr (List.mem_append_left _ ?_)
        rw [List.mem_reverse, List.mem_filter]
        exact ⟨hv, by simpa using hvi⟩
    · rcases hinv u hu v hv with h | h
      · exact Or.inl (Finset.mem_insert_of_mem h)
      · rcases List.mem_cons.1 h with h | h
        · exact Or.inl (h ▸ Finset.mem_insert_self current visited)
        · exact Or.inr (List.mem_append_right _ h)

lemma dfsLoop_visited_reach (g : Graph) (r : Nat) :
    ∀ (visited : Finset Nat) (stack component : List Nat),
      (∀ s ∈ stack, Reachable g r s) →
      ∀ x ∈ (dfsLoop g visited stack component).1, x ∈ visited ∨ Reachable g r x := by
  intro visited stack component
  induction visited, stack, component using dfsLoop.induct g with
  | case1 visited component =>
    intro hstack x hx
    rw [dfsLoop] at hx
    exact Or.inl hx
  | case2 visited component current rest hcv ih =>
    intro hstack x
    rw [dfsLoop, if_pos hcv]
    exact ih (fun s hs => hstack s (List.mem_cons_of_mem _ hs)) x
  | case3 visited component current rest hcv ih =>
    intro hstack x hx
    rw [dfsLoop, if_neg hcv] at hx
    have hcur : Reachable g r current := hstack current (List.mem_cons_self _ _)
    have hstack' : ∀ s ∈ ((g.adj current).filter
        (fun v => decide (v ∉ insert current visited))).reverse ++ rest,
        Reachable g r s := by
      intro s hs
      rcases List.mem_append.1 hs with hs | hs
      · rw [List.mem_reverse, List.mem_filter] at hs
        exact hcur.tail hs.1
      · exact hstack s (List.mem_cons_of_mem _ hs)
    rcases ih hstack' x hx with h | h
    · rcases Finset.mem_insert.1 h with h | h
      · exact Or.inr (h ▸ hcur)
      · exact Or.inl h
    · exact Or.inr h

lemma dfsLoop_component_spec (g : Graph) :
    ∀ (visited : Finset Nat) (stack component : List Nat),
      (∀ x ∈ component, x ∈ visited) →
      (∀ x, x ∈ (dfsLoop g visited stack component).2 ↔
          x ∈ component ∨ (x ∈ (dfsLoop g visited stack component).1 ∧ x ∉ visited)) ∧
        (component.Nodup → (dfsLoop g visited stack component).2.Nodup) := by
  intro visited stack component
  induction visited, stack, component using dfsLoop.induct g with
  | case1 visited component =>
    intro hcomp
    rw [dfsLoop]
    constructor
    · intro x
      constructor
      · intro hx; exact Or.inl hx
      · rintro (hx | ⟨hx1, hx2⟩)
        · exact hx
        · exact absurd hx1 hx2
    · exact id
  | case2 visited component current rest hcv ih =>
    intro hcomp
    rw [dfsLoop, if_pos hcv]
    exact ih hcomp
  | case3 visited component current rest hcv ih =>
    intro hcomp
    rw [dfsLoop, if_neg hcv]
    have hcomp' : ∀ x ∈ component ++ [current], x ∈ insert current visited := by
      intro x hx
      rcases List.mem_append.1 hx with hx | hx
      · exact Finset.mem_insert_of_mem (hcomp x hx)
      · simp only [List.mem_singleton] at hx
        simp [hx]
    obtain ⟨ihiff, ihnd⟩ := ih hcomp'
    have hsub := dfsLoop_visited_subset g (insert current visited)
      (((g.adj current).filter
        (fun v => decide (v ∉ insert current visited))).reverse ++ rest)
      (component ++ [current])
    constructor
    · intro x
      rw [ihiff x]
      constructor
      · rintro (hx | ⟨hx1, hx2⟩)
        · rcases List.mem_append.1 hx with hx | hx
          · exact Or.inl hx
          · simp only [List.mem_singleton] at hx
            subst hx
            exact Or.inr ⟨hsub (Finset.mem_insert_self _ _), hcv⟩
        · exact Or.inr ⟨hx1, fun hxv => hx2 (Finset.mem_insert_of_mem hxv)⟩
      · rintro (hx | ⟨hx1, hx2⟩)
        · exact Or.inl (List.mem_append_left _ hx)
        · by_cases hxc : x = current
          · exact Or.inl (List.mem_append_right _ (by simp [hxc]))
          · refine Or.inr ⟨hx1, ?_⟩
            simp [Finset.mem_insert, hxc, hx2]
    · intro hnd
      apply ihnd
      rw [List.nodup_append]
      refine ⟨hnd, List.nodup_singleton current, ?_⟩
      intro x hx hx'
      simp only [List.mem_singleton] at hx'
      subst hx'
      exact hcv (hcomp x hx)

lemma dfs_call_spec (g : Graph) (A : Finset Nat) (r : Nat)
    (hA : ClosedSet g A) (hr : r ∉ A) :
    (∀ x, x ∈ (dfsLoop g A [r] []).2 ↔ Reachable g r x) ∧
      (∀ x, x ∈ (dfsLoop g A [r] []).1 ↔ x ∈ A ∨ Reachable g r x) ∧
      (dfsLoop g A [r] []).2.Nodup ∧
      ClosedSet g (dfsLoop g A [r] []).1 := by
  have hclosed : ClosedSet g (dfsLoop g A [r] []).1 :=
    dfsLoop_closed g A [r] [] (fun u hu v hv => Or.inl (hA u hu v hv))
  have hvis : ∀ x, x ∈ (dfsLoop g A [r] []).1 ↔ x ∈ A ∨ Reachable g r x := by
    intro x
    constructor
    · intro hx
      refine dfsLoop_visited_reach g r A [r] [] ?_ x hx
      intro s hs
      rw [List.mem_singleton] at hs
      subst hs
      exact Relation.ReflTransGen.refl
    · rintro (hx | hx)
      · exact dfsLoop_visited_subset g A [r] [] hx
      · have hrf : r ∈ (dfsLoop g A [r] []).1 :=
          dfsLoop_stack_visited g A [r] [] r (List.mem_singleton_self r)
        exact reach_closed g hclosed hrf hx
  have hcompspec := dfsLoop_component_spec g A [r] [] (by simp)
  refine ⟨?_, hvis, hcompspec.2 List.nodup_nil, hclosed⟩
  intro x
  rw [hcompspec.1 x]
  simp only [List.not_mem_nil, false_or]
  constructor
  · rintro ⟨hx1, hx2⟩
    rcases (hvis x).1 hx1 with h | h
    · exact absurd h hx2
    · exact h
  · intro hx
    refine ⟨(hvis x).2 (Or.inr hx), ?_⟩
    intro hxA
    exact hr (reach_closed g hA hxA (reach_symm g hx))

lemma dfsOuter_spec (g : Graph) :
    ∀ (ns : List Nat) (A : Finset Nat), ClosedSet g A →
      (∀ C ∈ dfsOuter g A ns, ∃ rt, rt ∈ ns ∧ rt ∉ A ∧ C.Nodup ∧
        (∀ x, x ∈ C ↔ Reachable g rt x)) ∧
      (∀ n ∈ ns, n ∉ A → ∃ C, C ∈ dfsOuter g A ns ∧ n ∈ C) ∧
      List.Pairwise (fun C D => ∀ x, x ∈ C → x ∉ D) (dfsOuter g A ns) := by
  intro ns
  induction ns with
  | nil =>
    intro A hA
    refine ⟨?_, ?_, ?_⟩ <;> simp [dfsOuter]
  | cons n ns ih =>
    intro A hA
    by_cases hn : n ∈ A
    · rw [dfsOuter, if_pos hn]
      obtain ⟨ih1, ih2, ih3⟩ := ih A hA
      refine ⟨?_, ?_, ih3⟩
      · intro C hC
        obtain ⟨rt, hr1, hr2, hr3, hr4⟩ := ih1 C hC
        exact ⟨rt, List.mem_cons_of_mem _ hr1, hr2, hr3, hr4⟩
      · intro m hm hmA
        rcases List.mem_cons.1 hm with hm | hm
        · exact absurd (hm ▸ hn) hmA
        · obtain ⟨C, hC1, hC2⟩ := ih2 m hm hmA
          exact ⟨C, hC1, hC2⟩
    · rw [dfsOuter, if_neg hn]
      obtain ⟨hcomp, hvis, hnd, hclosed⟩ := dfs_call_spec g A n hA hn
      obtain ⟨ih1, ih2, ih3⟩ := ih (dfsLoop g A [n] []).1 hclosed
      refine ⟨?_, ?_, ?_⟩
      · intro C hC
        rcases List.mem_cons.1 hC with hC | hC
        · refine ⟨n, List.mem_cons_self _ _, hn, ?_, ?_⟩
          · rw [hC]; exact hnd
          · rw [hC]; exact hcomp
        · obtain ⟨rt, hr1, hr2, hr3, hr4⟩ := ih1 C hC
          refine ⟨rt, List.mem_cons_of_mem _ hr1, ?_, hr3, hr4⟩
          intro hrA
          exact hr2 ((hvis rt).2 (Or.inl hrA))
      · intro m hm hmA
        rcases List.mem_cons.1 hm with hm | hm
        · subst hm
          exact ⟨(dfsLoop g A [m] []).2, List.mem_cons_self _ _,
            (hcomp m).2 Relation.ReflTransGen.refl⟩
        · by_cases hmf : m ∈ (dfsLoop g A [n] []).1
          · rcases (hvis m).1 hmf with h | h
            · exact absurd h hmA
            · exact ⟨(dfsLoop g A [n] []).2, List.mem_cons_self _ _, (hcomp m).2 h⟩
          · obtain ⟨C, hC1, hC2⟩ := ih2 m hm hmf
            exact ⟨C, List.mem_cons_of_mem _ hC1, hC2⟩
      · rw [List.pairwise_cons]
        refine ⟨?_, ih3⟩
        intro D hD x hxC hxD
        obtain ⟨rt, hr1, hr2, hr3, hr4⟩ := ih1 D hD
        have h1 : Reachable g n x := (hcomp x).1 hxC
        have h2 : Reachable g rt x := (hr4 x).1 hxD
        exact hr2 ((hvis rt).2 (Or.inr (h1.trans (reach_symm g h2))))

end DfsLemmas

section BfsLemmas

lemma bfsLoop_visited_subset (g : Graph) :
    ∀ (visited : Finset Nat) (queue component : List Nat),
      visited ⊆ (bfsLoop g visited queue component).1 := by
  intro visited queue component
  induction visited, queue, component using bfsLoop.induct g with
  | case1 visited component => rw [bfsLoop]
  | case2 visited component current rest hcv ih =>
    rw [bfsLoop, if_pos hcv]; exact ih
  | case3 visited component current rest hcv ih =>
    rw [bfsLoop, if_neg hcv]
    exact (Finset.subset_insert current visited).trans ih

lemma bfsLoop_queue_visited (g : Graph) :
    ∀ (visited : Finset Nat) (queue component : List Nat),
      ∀ s ∈ queue, s ∈ (bfsLoop g visited queue component).1 := by
  intro visited queue component
  induction visited, queue, component using bfsLoop.induct g with
  | case1 visited component => intro s hs; simp at hs
  | case2 visited component current rest hcv ih =>
    intro s hs
    rw [bfsLoop, if_pos hcv]
    rcases List.mem_cons.1 hs with hs | hs
    · exact bfsLoop_visited_subset g _ _ _ (hs ▸ hcv)
    · exact ih s hs
  | case3 visited component current rest hcv ih =>
    intro s hs
    rw [bfsLoop, if_neg hcv]
    rcases List.mem_cons.1 hs with hs | hs
    · exact bfsLoop_visited_subset g _ _ _ (hs ▸ Finset.mem_insert_self current visited)
    · exact ih s (List.mem_append_left _ hs)

lemma bfsLoop_closed (g : Graph) :
    ∀ (visited : Finset Nat) (queue component : List Nat),
      (∀ u ∈ visited, ∀ v ∈ g.adj u, v ∈ visited ∨ v ∈ queue) →
      ∀ u ∈ (bfsLoop g visited queue component).1, ∀ v ∈ g.adj u,
        v ∈ (bfsLoop g visited queue component).1 := by
  intro visited queue component
  induction visited, queue, component using bfsLoop.induct g with
  | case1 visited component =>
    intro hinv u hu v hv
    rw [bfsLoop] at hu ⊢
    rcases hinv u hu v hv with h | h
    · exact h
    · simp at h
  | case2 visited component current rest hcv ih =>
    intro hinv
    rw [bfsLoop, if_pos hcv]
    apply ih
    intro u hu v hv
    rcases hinv u hu v hv with h | h
    · exact Or.inl h
    · rcases List.mem_cons.1 h with h | h
      · exact Or.inl (h ▸ hcv)
      · exact Or.inr h
  | case3 visited component current rest hcv ih =>
    intro hinv
    rw [bfsLoop, if_neg hcv]
    apply ih
    intro u hu v hv
    rcases Finset.mem_insert.1 hu with hu | hu
    · subst hu
      by_cases hvi : v ∈ insert u visited
      · exact Or.inl hvi
      · refine Or.inr (List.mem_append_right _ ?_)
        rw [List.mem_filter]
        exact ⟨hv, by simpa using hvi⟩
    · rcases hinv u hu v hv with h | h
      · exact Or.inl (Finset.mem_insert_of_mem h)
      · rcases List.mem_cons.1 h with h | h
        · exact Or.inl (h ▸ Finset.mem_insert_self current visited)
        · exact Or.inr (List.mem_append_left _ h)

lemma bfsLoop_visited_reach (g : Graph) (r : Nat) :
    ∀ (visited : Finset Nat) (queue component : List Nat),
      (∀ s ∈ queue, Reachable g r s) →
      ∀ x ∈ (bfsLoop g visited queue component).1, x ∈ visited ∨ Reachable g r x := by
  intro visited queue component
  induction visited, queue, component using bfsLoop.induct g with
  | case1 visited component =>
    intro hqueue x hx
    rw [bfsLoop] at hx
    exact Or.inl hx
  | case2 visited component current rest hcv ih =>
    intro hqueue x
    rw [bfsLoop, if_pos hcv]
    exact ih (fun s hs => hqueue s (List.mem_cons_of_mem _ hs)) x
  | case3 visited component current rest hcv ih =>
    intro hqueue x hx
    rw [bfsLoop, if_neg hcv] at hx
    have hcur : Reachable g r current := hqueue current (List.mem_cons_self _ _)
    have hqueue' : ∀ s ∈ rest ++ (g.adj current).filter
        (fun v => decide (v ∉ insert current visited)),
        Reachable g r s := by
      intro s hs
      rcases List.mem_append.1 hs with hs | hs
      · exact hqueue s (List.mem_cons_of_mem _ hs)
      · rw [List.mem_filter] at hs
        exact hcur.tail hs.1
    rcases ih hqueue' x hx with h | h
    · rcases Finset.mem_insert.1 h with h | h
      · exact Or.inr (h ▸ hcur)
      · exact Or.inl h
    · exact Or.inr h

lemma bfsLoop_component_spec (g : Graph) :
    ∀ (visited : Finset Nat) (queue component : List Nat),
      (∀ x ∈ component, x ∈ visited) →
      (∀ x, x ∈ (bfsLoop g visited queue component).2 ↔
          x ∈ component ∨ (x ∈ (bfsLoop g visited queue component).1 ∧ x ∉ visited)) ∧
        (component.Nodup → (bfsLoop g visited queue component).2.Nodup) := by
  intro visited queue component
  induction visited, queue, component using bfsLoop.induct g with
  | case1 visited component =>
    intro hcomp
    rw [bfsLoop]
    constructor
    · intro x
      constructor
      · intro hx; exact Or.inl hx
      · rintro (hx | ⟨hx1, hx2⟩)
        · exact hx
        · exact absurd hx1 hx2
    · exact id
  | case2 visited component current rest hcv ih =>
    intro hcomp
    rw [bfsLoop, if_pos hcv]
    exact ih hcomp
  | case3 visited component current rest hcv ih =>
    intro hcomp
    rw [bfsLoop, if_neg hcv]
    have hcomp' : ∀ x ∈ component ++ [current], x ∈ insert current visited := by
      intro x hx
      rcases List.mem_append.1 hx with hx | hx
      · exact Finset.mem_insert_of_mem (hcomp x hx)
      · simp only [List.mem_singleton] at hx
        simp [hx]
    obtain ⟨ihiff, ihnd⟩ := ih hcomp'
    have hsub := bfsLoop_visited_subset g (insert current visited)
      (rest ++ (g.adj current).filter
        (fun v => decide (v ∉ insert current visited)))
      (component ++ [current])
    constructor
    · intro x
      rw [ihiff x]
      constructor
      · rintro (hx | ⟨hx1, hx2⟩)
        · rcases List.mem_append.1 hx with hx | hx
          · exact Or.inl hx
          · simp only [List.mem_singleton] at hx
            subst hx
            exact Or.inr ⟨hsub (Finset.mem_insert_self _ _), hcv⟩
        · exact Or.inr ⟨hx1, fun hxv => hx2 (Finset.mem_insert_of_mem hxv)⟩
      · rintro (hx | ⟨hx1, hx2⟩)
        · exact Or.inl (List.mem_append_left _ hx)
        · by_cases hxc : x = current
          · exact Or.inl (List.mem_append_right _ (by simp [hxc]))
          · refine Or.inr ⟨hx1, ?_⟩
            simp [Finset.mem_insert, hxc, hx2]
    · intro hnd
      apply ihnd
      rw [List.nodup_append]
      refine ⟨hnd, List.nodup_singleton current, ?_⟩
      intro x hx hx'
      simp only [List.mem_singleton] at hx'
      subst hx'
      exact hcv (hcomp x hx)

lemma bfs_call_spec (g : Graph) (A : Finset Nat) (r : Nat)
    (hA : ClosedSet g A) (hr : r ∉ A) :
    (∀ x, x ∈ (bfsLoop g A [r] []).2 ↔ Reachable g r x) ∧
      (∀ x, x ∈ (bfsLoop g A [r] []).1 ↔ x ∈ A ∨ Reachable g r x) ∧
      (bfsLoop g A [r] []).2.Nodup ∧
      ClosedSet g (bfsLoop g A [r] []).1 := by
  have hclosed : ClosedSet g (bfsLoop g A [r] []).1 :=
    bfsLoop_closed g A [r] [] (fun u hu v hv => Or.inl (hA u hu v hv))
  have hvis : ∀ x, x ∈ (bfsLoop g A [r] []).1 ↔ x ∈ A ∨ Reachable g r x := by
    intro x
    constructor
    · intro hx
      refine bfsLoop_visited_reach g r A [r] [] ?_ x hx
      intro s hs
      rw [List.mem_singleton] at hs
      subst hs
      exact Relation.ReflTransGen.refl
    · rintro (hx | hx)
      · exact bfsLoop_visited_subset g A [r] [] hx
      · have hrf : r ∈ (bfsLoop g A [r] []).1 :=
          bfsLoop_queue_visited g A [r] [] r (List.mem_singleton_self r)
        exact reach_closed g hclosed hrf hx
  have hcompspec := bfsLoop_component_spec g A [r] [] (by simp)
  refine ⟨?_, hvis, hcompspec.2 List.nodup_nil, hclosed⟩
  intro x
  rw [hcompspec.1 x]
  simp only [List.not_mem_nil, false_or]
  constructor
  · rintro ⟨hx1, hx2⟩
    rcases (hvis x).1 hx1 with h | h
    · exact absurd h hx2
    · exact h
  · intro hx
    refine ⟨(hvis x).2 (Or.inr hx), ?_⟩
    intro hxA
    exact hr (reach_closed g hA hxA (reach_symm g hx))

lemma bfsOuter_spec (g : Graph) :
    ∀ (ns : List Nat) (A : Finset Nat), ClosedSet g A →
      (∀ C ∈ bfsOuter g A ns, ∃ rt, rt ∈ ns ∧ rt ∉ A ∧ C.Nodup ∧
        (∀ x, x ∈ C ↔ Reachable g rt x)) ∧
      (∀ n ∈ ns, n ∉ A → ∃ C, C ∈ bfsOuter g A ns ∧ n ∈ C) ∧
      List.Pairwise (fun C D => ∀ x, x ∈ C → x ∉ D) (bfsOuter g A ns) := by
  intro ns
  induction ns with
  | nil =>
    intro A hA
    refine ⟨?_, ?_, ?_⟩ <;> simp [bfsOuter]
  | cons n ns ih =>
    intro A hA
    by_cases hn : n ∈ A
    · rw [bfsOuter, if_pos hn]
      obtain ⟨ih1, ih2, ih3⟩ := ih A hA
      refine ⟨?_, ?_, ih3⟩
      · intro C hC
        obtain ⟨rt, hr1, hr2, hr3, hr4⟩ := ih1 C hC
        exact ⟨rt, List.mem_cons_of_mem _ hr1, hr2, hr3, hr4⟩
      · intro m hm hmA
        rcases List.mem_cons.1 hm with hm | hm
        · exact absurd (hm ▸ hn) hmA
        · obtain ⟨C, hC1, hC2⟩ := ih2 m hm hmA
          exact ⟨C, hC1, hC2⟩
    · rw [bfsOuter, if_neg hn]
      obtain ⟨hcomp, hvis, hnd, hclosed⟩ := bfs_call_spec g A n hA hn
      obtain ⟨ih1, ih2, ih3⟩ := ih (bfsLoop g A [n] []).1 hclosed
      refine ⟨?_, ?_, ?_⟩
      · intro C hC
        rcases List.mem_cons.1 hC with hC | hC
        · refine ⟨n, List.mem_cons_self _ _, hn, ?_, ?_⟩
          · rw [hC]; exact hnd
          · rw [hC]; exact hcomp
        · obtain ⟨rt, hr1, hr2, hr3, hr4⟩ := ih1 C hC
          refine ⟨rt, List.mem_cons_of_mem _ hr1, ?_, hr3, hr4⟩
          intro hrA
          exact hr2 ((hvis rt).2 (Or.inl hrA))
      · intro m hm hmA
        rcases List.mem_cons.1 hm with hm | hm
        · subst hm
          exact ⟨(bfsLoop g A [m] []).2, List.mem_cons_self _ _,
            (hcomp m).2 Relation.ReflTransGen.refl⟩
        · by_cases hmf : m ∈ (bfsLoop g A [n] []).1
          · rcases (hvis m).1 hmf with h | h
            · exact absurd h hmA
            · exact ⟨(bfsLoop g A [n] []).2, List.mem_cons_self _ _, (hcomp m).2 h⟩
          · obtain ⟨C, hC1, hC2⟩ := ih2 m hm hmf
            exact ⟨C, List.mem_cons_of_mem _ hC1, hC2⟩
      · rw [List.pairwise_cons]
        refine ⟨?_, ih3⟩
        intro D hD x hxC hxD
        obtain ⟨rt, hr1, hr2, hr3, hr4⟩ := ih1 D hD
        have h1 : Reachable g n x := (hcomp x).1 hxC
        have h2 : Reachable g rt x := (hr4 x).1 hxD
        exact hr2 ((hvis rt).2 (Or.inr (h1.trans (reach_symm g h2))))

end BfsLemmas

section TraversalClaims

lemma empty_closed (g : Graph) : ClosedSet g (∅ : Finset Nat) :=
  fun u hu => absurd hu (Finset.not_mem_empty u)

lemma dfs_family (g : Graph) (S : Set Nat) :
    (∃ C, C ∈ find_connected_components_dfs g ∧ S = { x | x ∈ C }) ↔
      S ∈ find_connected_components_networkx g := by
  obtain ⟨h1, h2, h3⟩ := dfsOuter_spec g g.nodes ∅ (empty_closed g)
  simp only [find_connected_components_dfs, find_connected_components_networkx,
    Set.mem_setOf_eq]
  constructor
  · rintro ⟨C, hC, rfl⟩
    obtain ⟨rt, hr1, hr2, hr3, hr4⟩ := h1 C hC
    refine ⟨rt, hr1, ?_⟩
    ext x
    simp only [Set.mem_setOf_eq]
    exact hr4 x
  · rintro ⟨v, hv, rfl⟩
    obtain ⟨C, hC, hvC⟩ := h2 v hv (Finset.not_mem_empty v)
    obtain ⟨rt, hr1, hr2, hr3, hr4⟩ := h1 C hC
    have hrv : Reachable g rt v := (hr4 v).1 hvC
    refine ⟨C, hC, ?_⟩
    ext x
    simp only [Set.mem_setOf_eq]
    rw [hr4 x]
    constructor
    · intro h
      exact hrv.trans h
    · intro h
      exact (reach_symm g hrv).trans h

lemma bfs_family (g : Graph) (S : Set Nat) :
    (∃ C, C ∈ find_connected_components_bfs g ∧ S = { x | x ∈ C }) ↔
      S ∈ find_connected_components_networkx g := by
  obtain ⟨h1, h2, h3⟩ := bfsOuter_spec g g.nodes ∅ (empty_closed g)
  simp only [find_connected_components_bfs, find_connected_components_networkx,
    Set.mem_setOf_eq]
  constructor
  · rintro ⟨C, hC, rfl⟩
    obtain ⟨rt, hr1, hr2, hr3, hr4⟩ := h1 C hC
    refine ⟨rt, hr1, ?_⟩
    ext x
    simp only [Set.mem_setOf_eq]
    exact hr4 x
  · rintro ⟨v, hv, rfl⟩
    obtain ⟨C, hC, hvC⟩ := h2 v hv (Finset.not_mem_empty v)
    obtain ⟨rt, hr1, hr2, hr3, hr4⟩ := h1 C hC
    have hrv : Reachable g rt v := (hr4 v).1 hvC
    refine ⟨C, hC, ?_⟩
    ext x
    simp only [Set.mem_setOf_eq]
    rw [hr4 x]
    constructor
    · intro h
      exact hrv.trans h
    · intro h
      exact (reach_symm g hrv).trans h

lemma dfs_same_component (g : Graph) (u v : Nat) :
    (∃ C, C ∈ find_connected_components_dfs g ∧ u ∈ C ∧ v ∈ C) ↔
      (u ∈ g.nodes ∧ Reachable g u v) := by
  obtain ⟨h1, h2, h3⟩ := dfsOuter_spec g g.nodes ∅ (empty_closed g)
  simp only [find_connected_components_dfs]
  constructor
  · rintro ⟨C, hC, huC, hvC⟩
    obtain ⟨rt, hr1, hr2, hr3, hr4⟩ := h1 C hC
    have hru := (hr4 u).1 huC
    have hrv := (hr4 v).1 hvC
    exact ⟨reach_mem g hr1 hru, (reach_symm g hru).trans hrv⟩
  · rintro ⟨hu, huv⟩
    obtain ⟨C, hC, huC⟩ := h2 u hu (Finset.not_mem_empty u)
    obtain ⟨rt, hr1, hr2, hr3, hr4⟩ := h1 C hC
    have hru := (hr4 u).1 huC
    exact ⟨C, hC, huC, (hr4 v).2 (hru.trans huv)⟩

lemma bfs_same_component (g : Graph) (u v : Nat) :
    (∃ C, C ∈ find_connected_components_bfs g ∧ u ∈ C ∧ v ∈ C) ↔
      (u ∈ g.nodes ∧ Reachable g u v) := by
  obtain ⟨h1, h2, h3⟩ := bfsOuter_spec g g.nodes ∅ (empty_closed g)
  simp only [find_connected_components_bfs]
  constructor
  · rintro ⟨C, hC, huC, hvC⟩
    obtain ⟨rt, hr1, hr2, hr3, hr4⟩ := h1 C hC
    have hru := (hr4 u).1 huC
    have hrv := (hr4 v).1 hvC
    exact ⟨reach_mem g hr1 hru, (reach_symm g hru).trans hrv⟩
  · rintro ⟨hu, huv⟩
    obtain ⟨C, hC, huC⟩ := h2 u hu (Finset.not_mem_empty u)
    obtain ⟨rt, hr1, hr2, hr3, hr4⟩ := h1 C hC
    have hru := (hr4 u).1 huC
    exact ⟨C, hC, huC, (hr4 v).2 (hru.trans huv)⟩

/-- Claim C6: the library traversal (modelled by its specified contract: the
partition into reachability classes), the explicit depth-first search, and
the explicit breadth-first search produce identical component membership:
the families of component node sets coincide, and two nodes share a DFS
component exactly when they share a BFS component. -/
theorem connected_components_agree (g : Graph) :
    (∀ S : Set Nat,
        (∃ C, C ∈ find_connected_components_dfs g ∧ S = { x | x ∈ C }) ↔
          S ∈ find_connected_components_networkx g) ∧
      (∀ S : Set Nat,
        (∃ C, C ∈ find_connected_components_bfs g ∧ S = { x | x ∈ C }) ↔
          S ∈ find_connected_components_networkx g) ∧
      (∀ u v : Nat,
        (∃ C, C ∈ find_connected_components_dfs g ∧ u ∈ C ∧ v ∈ C) ↔
          (∃ C, C ∈ find_connected_components_bfs g ∧ u ∈ C ∧ v ∈ C)) := by
  refine ⟨dfs_family g, bfs_family g, ?_⟩
  intro u v
  rw [dfs_same_component g u v, bfs_same_component g u v]

/-- Claim C7: the components returned by the explicit DFS and by the
explicit BFS form a partition of the graph's node set: a node belongs to
some component exactly when it is a node of the graph, components are
pairwise disjoint, no component lists a node twice, and the component
containing a given node is unique. -/
theorem connected_components_partition (g : Graph) :
    ((∀ n, n ∈ g.nodes ↔ ∃ C, C ∈ find_connected_components_dfs g ∧ n ∈ C) ∧
      (∀ C ∈ find_connected_components_dfs g, C.Nodup) ∧
      List.Pairwise (fun C D => ∀ x, x ∈ C → x ∉ D)
        (find_connected_components_dfs g) ∧
      (∀ n C D, C ∈ find_connected_components_dfs g →
        D ∈ find_connected_components_dfs g → n ∈ C → n ∈ D → C = D)) ∧
    ((∀ n, n ∈ g.nodes ↔ ∃ C, C ∈ find_connected_components_bfs g ∧ n ∈ C) ∧
      (∀ C ∈ find_connected_components_bfs g, C.Nodup) ∧
      List.Pairwise (fun C D => ∀ x, x ∈ C → x ∉ D)
        (find_connected_components_bfs g) ∧
      (∀ n C D, C ∈ find_connected_components_bfs g →
        D ∈ find_connected_components_bfs g → n ∈ C → n ∈ D → C = D)) := by
  have hsymm : Symmetric (fun C D : List Nat => ∀ x, x ∈ C → x ∉ D) := by
    intro C D h x hxD hxC
    exact h x hxC hxD
  constructor
  · obtain ⟨h1, h2, h3⟩ := dfsOuter_spec g g.nodes ∅ (empty_closed g)
    simp only [find_connected_components_dfs]
    refine ⟨?_, ?_, h3, ?_⟩
    · intro n
      constructor
      · intro hn
        exact h2 n hn (Finset.not_mem_empty n)
      · rintro ⟨C, hC, hnC⟩
        obtain ⟨rt, hr1, hr2, hr3, hr4⟩ := h1 C hC
        exact reach_mem g hr1 ((hr4 n).1 hnC)
    · intro C hC
      obtain ⟨rt, hr1, hr2, hr3, hr4⟩ := h1 C hC
      exact hr3
    · intro n C D hC hD hnC hnD
      by_contra hne
      exact h3.forall hsymm hC hD hne n hnC hnD
  · obtain ⟨h1, h2, h3⟩ := bfsOuter_spec g g.nodes ∅ (empty_closed g)
    simp only [find_connected_components_bfs]
    refine ⟨?_, ?_, h3, ?_⟩
    · intro n
      constructor
      · intro hn
        exact h2 n hn (Finset.not_mem_empty n)
      · rintro ⟨C, hC, hnC⟩
        obtain ⟨rt, hr1, hr2, hr3, hr4⟩ := h1 C hC
        exact reach_mem g hr1 ((hr4 n).1 hnC)
    · intro C hC
      obtain ⟨rt, hr1, hr2, hr3, hr4⟩ := h1 C hC
      exact hr3
    · intro n C D hC hD hnC hnD
      by_contra hne
      exact h3.forall hsymm hC hD hne n hnC hnD

end TraversalClaims

end NYCTaxi
